import Mathlib

/-!
Verification of the outpack server core against its specification.

The embedding covers:
* the `add_file` endpoint of `src/api.rs` (object commit: staging to the fixed
  temporary path, UTF-8 read, hash verification, shard-directory creation,
  rename into the content-addressed store);
* the git branch listing of `src/git.rs`;
* the metadata / query operations whose implementation modules (`metadata`,
  `store`, `hash`, `query`) are declared in `src/lib.rs` but whose code is not
  part of the sources; those are modelled from the specification, as marked on
  each definition.

Strings carried through the filesystem model are Lean `String`s; file contents
are byte lists (`List Nat`, each entry a byte value).
-/

namespace Outpack

/-- Byte sequences: the raw content of an uploaded file. -/
abbrev Bytes := List Nat

/-- The hash algorithms the repository configuration can select.
Modelled from the spec: the hash module's algorithm enum (`sha256`, `md5`). -/
inductive HashAlgorithm where
  | sha256
  | md5
deriving DecidableEq, Repr

/-- Printed name of a hash algorithm, as used in `algorithm:hex` strings. -/
def algName : HashAlgorithm → String
  | .sha256 => "sha256"
  | .md5 => "md5"

/-- Expected hex-digest length of each algorithm (64 for sha256, 32 for md5). -/
def hexLen : HashAlgorithm → Nat
  | .sha256 => 64
  | .md5 => 32

/-- The lowercase hex character for a digit value below 16. -/
def hexChar (n : Nat) : Char :=
  if n < 10 then Char.ofNat (48 + n) else Char.ofNat (87 + n)

/-- Big-endian fixed-width hex rendering of a natural number. -/
def natToHexAux : Nat → Nat → List Char → List Char
  | 0, _, acc => acc
  | w + 1, v, acc => natToHexAux w (v / 16) (hexChar (v % 16) :: acc)

/-- `natToHex w v` is `v` written as exactly `w` hex characters. -/
def natToHex (w v : Nat) : List Char :=
  natToHexAux w v []

/-- Modelled from the spec: the cryptographic digest of the hash module.  The
real code (module `hash`, not among the sources) computes sha256/md5 over the
content bytes; the model stands in a deterministic pure checksum of the bytes,
reduced to the algorithm's digest width. -/
def digestNat (bs : Bytes) (modulus : Nat) : Nat :=
  bs.foldl (fun a b => (a * 257 + b % 256 + 1) % modulus) 0

/-- Modelled from the spec: `hash::hash_data`, producing `algorithm:hexdigest`
for the given content (`src/api.rs` line 115 digests the uploaded content with
the configured algorithm). -/
def hash_data (content : Bytes) (alg : HashAlgorithm) : String :=
  algName alg ++ ":" ++ String.mk (natToHex (hexLen alg) (digestNat content (16 ^ hexLen alg)))

/-- A UTF-8 continuation byte (`0x80`–`0xBF`). -/
def isCont (b : Nat) : Bool :=
  128 ≤ b && b ≤ 191

/-- Validity of a byte sequence as UTF-8, exactly as `std::fs::read_to_string`
(used at `src/api.rs` line 114) demands: it fails with `InvalidData` unless the
file's bytes form well-formed UTF-8 (no overlong forms, no surrogates, no code
point above `U+10FFFF`). -/
def validUtf8 : Bytes → Bool
  | [] => true
  | b :: r =>
    if b < 128 then validUtf8 r
    else if b < 194 then false
    else if b < 224 then
      match r with
      | b1 :: r1 => isCont b1 && validUtf8 r1
      | [] => false
    else if b < 240 then
      match r with
      | b1 :: b2 :: r2 =>
        (if b = 224 then 160 ≤ b1 && b1 ≤ 191
         else if b = 237 then 128 ≤ b1 && b1 ≤ 159
         else isCont b1) && isCont b2 && validUtf8 r2
      | _ => false
    else if b < 245 then
      match r with
      | b1 :: b2 :: b3 :: r3 =>
        (if b = 240 then 144 ≤ b1 && b1 ≤ 191
         else if b = 244 then 128 ≤ b1 && b1 ≤ 143
         else isCont b1) && isCont b2 && isCont b3 && validUtf8 r3
      | _ => false
    else false

/-- Hex digit check for hash strings (`0-9`, `a-f`). -/
def isHexDigitCh (c : Char) : Bool :=
  (48 ≤ c.toNat && c.toNat ≤ 57) || (97 ≤ c.toNat && c.toNat ≤ 102)

/-- Split a character list at its first colon, returning the two sides. -/
def splitColon : List Char → Option (List Char × List Char)
  | [] => none
  | c :: cs =>
    if c = ':' then some ([], cs)
    else (splitColon cs).map (fun p => (c :: p.1, p.2))

/-- Recognise an algorithm name. -/
def algOfString : String → Option HashAlgorithm
  | "sha256" => some .sha256
  | "md5" => some .md5
  | _ => none

/-- A parsed `algorithm:hex` hash. -/
structure ParsedHash where
  algo : HashAlgorithm
  hex : List Char
deriving DecidableEq, Repr

/-- Modelled from the spec: the hash module's `parse`, failing unless the
string has the `algorithm:hex` shape with the algorithm's expected hex length
(`store::file_path`, called at `src/api.rs` line 122, rejects unparseable
hashes). -/
def parseHash (s : String) : Option ParsedHash :=
  match splitColon s.toList with
  | none => none
  | some (a, h) =>
    match algOfString (String.mk a) with
    | none => none
    | some alg =>
      if h.length = hexLen alg && h.all isHexDigitCh then some ⟨alg, h⟩ else none

/-- Modelled from the spec: the shard directory of a stored object
(`algorithm/hex-…` sharded layout under the root's object area). -/
def shardDir (root : String) (ph : ParsedHash) : String :=
  root ++ "/files/" ++ algName ph.algo ++ "/" ++ String.mk (ph.hex.take 2)

/-- Modelled from the spec: `store::file_path`, the final content-addressed
path of an object: shard directory plus the remaining hex characters. -/
def filePath (root : String) (ph : ParsedHash) : String :=
  shardDir root ph ++ "/" ++ String.mk (ph.hex.drop 2)

/-- The fixed staging path hard-coded at `src/api.rs` line 109. -/
def tmpPath : String := "/tmp/1234"

/-- Association-list lookup of a file's content by path. -/
def fsGet (fs : List (String × Bytes)) (p : String) : Option Bytes :=
  (fs.find? (fun e => decide (e.1 = p))).map (fun e => e.2)

/-- Write (create or replace) the file at a path. -/
def fsSet (fs : List (String × Bytes)) (p : String) (v : Bytes) : List (String × Bytes) :=
  (p, v) :: fs.filter (fun e => decide (e.1 ≠ p))

/-- Remove the file at a path. -/
def fsDel (fs : List (String × Bytes)) (p : String) : List (String × Bytes) :=
  fs.filter (fun e => decide (e.1 ≠ p))

/-- The filesystem state visible to `add_file`: files by path, plus the set of
directories that exist (consulted by `fs::create_dir`). -/
structure FsState where
  files : List (String × Bytes)
  dirs : List String
deriving DecidableEq, Repr

/-- The error outcomes of `add_file` (`src/api.rs` lines 102–127): an I/O
error carrying the `std::io::ErrorKind` name, or the hash-mismatch rejection
(returned by the source as the `INVALID_HASH` / `InvalidInput` response with
detail "Hash does not match file contents" — the spec's `HashMismatch`), or an
unparseable claimed hash (the spec's `InvalidHash` from `store::file_path`). -/
inductive StoreError where
  | ioError (kind : String)
  | hashMismatch
  | invalidHash
deriving DecidableEq, Repr

/-- The `add_file` endpoint of `src/api.rs` (lines 102–127), as a sequence of
filesystem steps.  Returns the list of intermediate filesystem states (one per
mutating step, in execution order) together with the call's result.

Steps, mirroring the source:
1. `file.persist_to("/tmp/1234")` — stage the upload at the fixed path;
2. `fs::read_to_string("/tmp/1234")` — fails unless the bytes are valid UTF-8;
3. compare the claimed hash against `hash::hash_data(content, alg)` where
   `alg` is the configured algorithm (from `config::read_config`, supplied
   here as a parameter);
4. `store::file_path(root, &hash)` — parse the hash into a store path;
5. `fs::create_dir(path.parent())` — fails with `AlreadyExists` when the
   shard directory already exists;
6. `file.persist_to(path)` — move the staged file to the final path. -/
def addFileRun (root : String) (alg : HashAlgorithm) (claimedHash : String)
    (content : Bytes) (s : FsState) : List FsState × Except StoreError Unit :=
  let s1 : FsState := { s with files := fsSet s.files tmpPath content }
  if validUtf8 content then
    if claimedHash = hash_data content alg then
      match parseHash claimedHash with
      | none => ([s1], .error .invalidHash)
      | some ph =>
        if s1.dirs.contains (shardDir root ph) then
          ([s1], .error (.ioError "AlreadyExists"))
        else
          let s2 : FsState := { s1 with dirs := shardDir root ph :: s1.dirs }
          let s3 : FsState :=
            { s2 with files := fsSet (fsDel s2.files tmpPath) (filePath root ph) content }
          ([s1, s2, s3], .ok ())
    else ([s1], .error .hashMismatch)
  else ([s1], .error (.ioError "InvalidData"))

/-- Modelled from the spec: the object store's `exists(hash)` — whether an
object is visible at the hash's store path. -/
def storeExists (root : String) (fs : List (String × Bytes)) (h : String) : Bool :=
  match parseHash h with
  | some ph => (fsGet fs (filePath root ph)).isSome
  | none => false


/-- Query scalar values: string, number and boolean literals, plus the null
sentinel produced by an absent parameter lookup.
Modelled from the spec: the query language's value domain (module `query`,
declared in `src/lib.rs` but not among the sources). -/
inductive QVal where
  | vstr (s : String)
  | vnum (q : ℚ)
  | vbool (b : Bool)
  | vnull
deriving DecidableEq, Repr

/-- A packet record of the metadata index.
Modelled from the spec: `Packet` with its id, name, creation time (seconds
since epoch, modelled as a rational) and parameter mapping; the file manifest,
dependencies and custom payload are not needed by the claims settled here. -/
structure Packet where
  id : String
  name : String
  time : ℚ
  parameters : List (String × QVal)
deriving DecidableEq, Repr

/-- Time-then-id ordering of packets: `time` ascending, ties broken by the
lexical order of packet ids. -/
abbrev packetLE (p q : Packet) : Prop :=
  p.time < q.time ∨ (p.time = q.time ∧ p.id ≤ q.id)

/-- Ordering of packets by `time` alone. -/
abbrev timeLE (p q : Packet) : Prop :=
  p.time ≤ q.time

instance : DecidableRel packetLE := fun p q =>
  inferInstanceAs (Decidable (p.time < q.time ∨ (p.time = q.time ∧ p.id ≤ q.id)))

instance : DecidableRel timeLE := fun p q =>
  inferInstanceAs (Decidable (p.time ≤ q.time))

instance : IsTotal Packet packetLE where
  total p q := by
    rcases lt_trichotomy p.time q.time with h | h | h
    · exact Or.inl (Or.inl h)
    · rcases le_total p.id q.id with h2 | h2
      · exact Or.inl (Or.inr ⟨h, h2⟩)
      · exact Or.inr (Or.inr ⟨h.symm, h2⟩)
    · exact Or.inr (Or.inl h)

instance : IsTrans Packet packetLE where
  trans p q r hpq hqr := by
    rcases hpq with h1 | ⟨h1, h1b⟩ <;> rcases hqr with h2 | ⟨h2, h2b⟩
    · exact Or.inl (h1.trans h2)
    · exact Or.inl (lt_of_lt_of_le h1 (le_of_eq h2))
    · exact Or.inl (lt_of_le_of_lt (le_of_eq h1) h2)
    · exact Or.inr ⟨h1.trans h2, h1b.trans h2b⟩

instance : IsTotal Packet timeLE where
  total p q := le_total p.time q.time

instance : IsTrans Packet timeLE where
  trans _ _ _ h1 h2 := le_trans h1 h2

instance : IsTotal String (fun a b : String => a ≤ b) where
  total := le_total

instance : IsTrans String (fun a b : String => a ≤ b) where
  trans _ _ _ h1 h2 := le_trans h1 h2

/-- Modelled from the spec: `metadata::get_metadata_from_date` (the
`/packit/metadata?known_since` endpoint, `src/api.rs` lines 54–59): the
packets newer than the given time (all packets when absent), ordered by
`time` ascending with ties broken by lexical id order. -/
def get_metadata_from_date (repo : List Packet) (known_since : Option ℚ) : List Packet :=
  (repo.filter fun p =>
    match known_since with
    | none => true
    | some t => decide (t < p.time)).insertionSort packetLE

/-- Modelled from the spec: the packets backing `metadata::get_missing_ids` —
index packets whose id is not among the supplied known ids, optionally
restricted to packets not yet materialized locally, ordered by `time`
ascending. -/
def missingPackets (repo : List Packet) (known : List String) (unpacked : Bool)
    (materialized : String → Bool) : List Packet :=
  (repo.filter fun p =>
    !decide (p.id ∈ known) && (!unpacked || !materialized p.id)).insertionSort timeLE

/-- Modelled from the spec: `metadata::get_missing_ids` (the
`/packets/missing` endpoint, `src/api.rs` lines 88–93). -/
def get_missing_ids (repo : List Packet) (known : List String) (unpacked : Bool)
    (materialized : String → Bool) : List String :=
  (missingPackets repo known unpacked materialized).map Packet.id

/-- Modelled from the spec: `metadata::get_ids_digest` (the `/checksum`
endpoint, `src/api.rs` lines 81–86) — a digest computed over the sorted full
set of packet ids; the digest function itself is a parameter, standing for the
configured algorithm's hash. -/
def get_ids_digest (digest : String → String) (repo : List Packet) : String :=
  digest (String.join ((repo.map Packet.id).insertionSort (fun a b : String => a ≤ b)))


/-- Lexical comparison of character lists by code point. -/
def charListLt : List Char → List Char → Bool
  | [], [] => false
  | [], _ :: _ => true
  | _ :: _, [] => false
  | a :: as, b :: bs =>
    if a.toNat < b.toNat then true
    else if b.toNat < a.toNat then false
    else charListLt as bs

/-- Lexical comparison of strings by code point. -/
def strLt (a b : String) : Bool :=
  charListLt a.toList b.toList

/-- Modelled from the spec: comparison of two query values — numeric when
both sides are numbers, lexical when both are strings; comparing incompatible
types (or the null sentinel) yields no ordering, so every comparison over it
is `false`. -/
def qvalCompare : QVal → QVal → Option Ordering
  | .vnum a, .vnum b => some (if a < b then .lt else if b < a then .gt else .eq)
  | .vstr a, .vstr b => some (if strLt a b then .lt else if strLt b a then .gt else .eq)
  | .vbool a, .vbool b => some (if a = b then .eq else if a = false then .lt else .gt)
  | _, _ => none

/-- Modelled from the spec: the query AST — literals, lookups (`name`, `id`,
`parameter:key`), the six comparisons and the boolean combinators (`latest`,
`usedby` and `depends` are not needed by the claims settled here). -/
inductive QExpr where
  | lit (v : QVal)
  | lookupName
  | lookupId
  | lookupParam (key : String)
  | cmpEq (a b : QExpr)
  | cmpNe (a b : QExpr)
  | cmpLt (a b : QExpr)
  | cmpLe (a b : QExpr)
  | cmpGt (a b : QExpr)
  | cmpGe (a b : QExpr)
  | qand (a b : QExpr)
  | qor (a b : QExpr)
  | qnot (a : QExpr)
deriving DecidableEq, Repr

/-- Modelled from the spec: `parameter:<key>` lookup — an absent key produces
the null sentinel, never an error. -/
def lookupParamVal (p : Packet) (k : String) : QVal :=
  match p.parameters.find? (fun e => decide (e.1 = k)) with
  | some e => e.2
  | none => QVal.vnull

/-- Truth of a query value in a boolean position (filter semantics: only the
boolean `true` counts as true). -/
def qvalTruth : QVal → Bool
  | .vbool b => b
  | _ => false

/-- Modelled from the spec: evaluation of a query expression against one
packet. -/
def evalQ (p : Packet) : QExpr → QVal
  | .lit v => v
  | .lookupName => .vstr p.name
  | .lookupId => .vstr p.id
  | .lookupParam k => lookupParamVal p k
  | .cmpEq a b => .vbool (decide (qvalCompare (evalQ p a) (evalQ p b) = some .eq))
  | .cmpNe a b => .vbool (match qvalCompare (evalQ p a) (evalQ p b) with
      | some .lt => true
      | some .gt => true
      | _ => false)
  | .cmpLt a b => .vbool (decide (qvalCompare (evalQ p a) (evalQ p b) = some .lt))
  | .cmpLe a b => .vbool (match qvalCompare (evalQ p a) (evalQ p b) with
      | some .lt => true
      | some .eq => true
      | _ => false)
  | .cmpGt a b => .vbool (decide (qvalCompare (evalQ p a) (evalQ p b) = some .gt))
  | .cmpGe a b => .vbool (match qvalCompare (evalQ p a) (evalQ p b) with
      | some .gt => true
      | some .eq => true
      | _ => false)
  | .qand a b => .vbool (qvalTruth (evalQ p a) && qvalTruth (evalQ p b))
  | .qor a b => .vbool (qvalTruth (evalQ p a) || qvalTruth (evalQ p b))
  | .qnot a => .vbool (!qvalTruth (evalQ p a))

/-- Whether a packet satisfies the query expression. -/
def matchesQ (e : QExpr) (p : Packet) : Bool :=
  qvalTruth (evalQ p e)

/-- Modelled from the spec: query evaluation returns the matching packets
ordered by `time` ascending, ties by id. -/
def evalMatches (e : QExpr) (repo : List Packet) : List Packet :=
  (repo.filter (matchesQ e)).insertionSort packetLE

/-- Modelled from the spec: the query evaluation errors needed here. -/
inductive QueryError where
  | ambiguousQuery (found : Nat)
deriving DecidableEq, Repr

/-- Modelled from the spec: `single(expr)` — requires the expression to match
exactly one packet; any other match count is an `AmbiguousQuery` error naming
the count found. -/
def singleQuery (e : QExpr) (repo : List Packet) : Except QueryError Packet :=
  match evalMatches e repo with
  | [p] => .ok p
  | l => .error (.ambiguousQuery l.length)


/-- A remote branch as reported by the git repository: its lossily decoded
name and the tip commit's hash, time and message (`src/git.rs`).  The first
entry of the remote-branch listing is the HEAD pointer. -/
structure RemoteBranch where
  name : List Char
  commitHash : List Char
  timeSeconds : Int
  commitMessage : List Char
deriving DecidableEq, Repr

/-- The branch record returned to callers (`BranchInfo` of `src/git.rs`). -/
structure BranchInfo where
  name : List Char
  commit_hash : List Char
  time : Int
  message : List (List Char)
deriving DecidableEq, Repr

/-- The characters of the remote name qualifier stripped from branch names. -/
def originChars : List Char := ['o', 'r', 'i', 'g', 'i', 'n', '/']

/-- The name computation of `src/git.rs` lines 27–31:
`lossy_name.strip_prefix("origin/").unwrap_or(&lossy_name)`. -/
def removeOrigin (s : List Char) : List Char :=
  if s.take 7 = originChars then s.drop 7 else s

/-- Split a character list at newline characters (every newline separates two
segments). -/
def splitOnNl : List Char → List (List Char)
  | [] => [[]]
  | c :: cs =>
    if c = '\n' then [] :: splitOnNl cs
    else
      match splitOnNl cs with
      | [] => [[c]]
      | h :: t => (c :: h) :: t

/-- Rust's `split_terminator` at newlines (`src/git.rs` lines 34–37): like
splitting at newlines, except that the trailing empty segment produced by a
terminating newline (or by an empty input) is omitted. -/
def splitTerm (s : List Char) : List (List Char) :=
  let r := splitOnNl s
  if r.getLast? = some [] then r.dropLast else r

/-- Join segments with newline separators. -/
def joinNl : List (List Char) → List Char
  | [] => []
  | [l] => l
  | l :: ls => l ++ '\n' :: joinNl ls

/-- `get_branch_info` of `src/git.rs` lines 23–45: strip a leading `origin/`
from the branch name, keep the tip commit's hash and time, and split the
commit message at newline terminators. -/
def get_branch_info (b : RemoteBranch) : BranchInfo :=
  { name := removeOrigin b.name
    commit_hash := b.commitHash
    time := b.timeSeconds
    message := splitTerm b.commitMessage }

/-- `git_list_branches` of `src/git.rs` lines 47–57: list the remote
branches, skipping the first one (the HEAD pointer), and report each
remaining branch's info. -/
def git_list_branches (branches : List RemoteBranch) : List BranchInfo :=
  (branches.drop 1).map get_branch_info


theorem fsGet_fsSet_self (fs : List (String × Bytes)) (p : String) (v : Bytes) :
    fsGet (fsSet fs p v) p = some v := by
  simp [fsGet, fsSet, List.find?]

theorem find?_and_ne (fs : List (String × Bytes)) (p q : String) (h : q ≠ p) :
    fs.find? (fun a => !decide (a.1 = p) && decide (a.1 = q))
      = fs.find? (fun e => decide (e.1 = q)) := by
  have hfun : (fun a : String × Bytes => !decide (a.1 = p) && decide (a.1 = q))
      = (fun a : String × Bytes => decide (a.1 = q)) := by
    funext a
    by_cases ha : a.1 = q
    · have hqp : decide (q = p) = false := by
        simp only [decide_eq_false_iff_not]
        exact h
      simp [ha, hqp]
    · simp [ha]
  rw [hfun]

theorem fsGet_fsSet_ne (fs : List (String × Bytes)) (p q : String) (v : Bytes) (h : q ≠ p) :
    fsGet (fsSet fs p v) q = fsGet fs q := by
  have hpq : decide (p = q) = false := by
    simp only [decide_eq_false_iff_not]
    exact fun hq => h hq.symm
  simp [fsGet, fsSet, List.find?, hpq]
  rw [find?_and_ne fs p q h]

theorem fsGet_fsDel_ne (fs : List (String × Bytes)) (p q : String) (h : q ≠ p) :
    fsGet (fsDel fs p) q = fsGet fs q := by
  simp [fsGet, fsDel]
  rw [find?_and_ne fs p q h]

theorem parseHash_hexLen {s : String} {ph : ParsedHash} (h : parseHash s = some ph) :
    ph.hex.length = hexLen ph.algo := by
  unfold parseHash at h
  rcases hsc : splitColon s.toList with _ | ⟨a, hx⟩
  · rw [hsc] at h; exact absurd h (by simp)
  · rw [hsc] at h
    dsimp only at h
    rcases hao : algOfString (String.mk a) with _ | alg
    · rw [hao] at h; exact absurd h (by simp)
    · rw [hao] at h
      dsimp only at h
      split at h
      · next hc =>
        simp only [Bool.and_eq_true, decide_eq_true_eq] at hc
        cases h
        exact hc.1
      · exact absurd h (by simp)

theorem filePath_ne_tmpPath {s : String} {ph : ParsedHash} (hp : parseHash s = some ph)
    (root : String) : filePath root ph ≠ tmpPath := by
  have hl := parseHash_hexLen hp
  intro he
  have hlen := congrArg String.length he
  have ha : 3 ≤ (algName ph.algo).length ∧ 32 ≤ hexLen ph.algo := by
    cases ph.algo <;> exact ⟨by decide, by decide⟩
  simp only [filePath, shardDir, String.length_append, String.length_mk,
    List.length_take, List.length_drop, tmpPath] at hlen
  rw [hl] at hlen
  have h9 : ("/tmp/1234" : String).length = 9 := by decide
  rw [h9] at hlen
  omega

/-- Every execution of `add_file` either stops in an error after the single
staging write, or runs the full staging / mkdir / rename sequence and
succeeds; in the latter case the claimed hash parsed and matched the content's
digest. -/
theorem addFileRun_shape (root : String) (alg : HashAlgorithm) (claimedHash : String)
    (content : Bytes) (s : FsState) :
    ((addFileRun root alg claimedHash content s).1
        = [{ s with files := fsSet s.files tmpPath content }] ∧
      (addFileRun root alg claimedHash content s).2 ≠ .ok ()) ∨
    (∃ ph, parseHash claimedHash = some ph ∧ claimedHash = hash_data content alg ∧
      (addFileRun root alg claimedHash content s).1
        = [{ s with files := fsSet s.files tmpPath content },
           { s with files := fsSet s.files tmpPath content,
                    dirs := shardDir root ph :: s.dirs },
           { s with files := fsSet (fsDel (fsSet s.files tmpPath content) tmpPath)
                       (filePath root ph) content,
                    dirs := shardDir root ph :: s.dirs }] ∧
      (addFileRun root alg claimedHash content s).2 = .ok ()) := by
  unfold addFileRun
  dsimp only
  by_cases hv : validUtf8 content = true
  · rw [if_pos hv]
    by_cases hh : claimedHash = hash_data content alg
    · rw [if_pos hh]
      rcases hp : parseHash claimedHash with _ | ph
      · left; exact ⟨rfl, by simp⟩
      · dsimp only
        by_cases hd : s.dirs.contains (shardDir root ph) = true
        · rw [if_pos hd]; left; exact ⟨rfl, by simp⟩
        · rw [if_neg hd]; right; exact ⟨ph, rfl, hh, rfl, rfl⟩
    · rw [if_neg hh]; left; exact ⟨rfl, by simp⟩
  · rw [if_neg hv]; left; exact ⟨rfl, by simp⟩

/-- C1 (as amended).  `commit_object` (the `add_file` endpoint) with an
uploaded content that is valid UTF-8 (so the `fs::read_to_string` step
succeeds) and whose configured-algorithm digest differs from the claimed hash
always fails with the hash-mismatch rejection, and the object store at that
hash's path is exactly as before the call (so `exists(hash)` remains false).
The UTF-8 restriction is forced: a non-UTF-8 upload with a mismatched digest
fails earlier, at the read step, with a different error — see the
counterexample below. -/
theorem addFile_hashMismatch_rejected (root : String) (alg : HashAlgorithm)
    (claimedHash : String) (content : Bytes) (s : FsState)
    (hv : validUtf8 content = true) (hne : claimedHash ≠ hash_data content alg) :
    (addFileRun root alg claimedHash content s).2 = .error .hashMismatch ∧
    storeExists root
        ((addFileRun root alg claimedHash content s).1.getLastD s).files claimedHash
      = storeExists root s.files claimedHash := by
  have hrun : addFileRun root alg claimedHash content s
      = ([{ s with files := fsSet s.files tmpPath content }], .error .hashMismatch) := by
    unfold addFileRun
    dsimp only
    rw [if_pos hv, if_neg hne]
  rw [hrun]
  refine ⟨rfl, ?_⟩
  unfold storeExists
  rcases hp : parseHash claimedHash with _ | ph
  · rfl
  · have heq : fsGet (fsSet s.files tmpPath content) (filePath root ph)
        = fsGet s.files (filePath root ph) :=
      fsGet_fsSet_ne s.files tmpPath (filePath root ph) content (filePath_ne_tmpPath hp root)
    simp [List.getLastD, heq]

theorem addFile_hashMismatch_rejected_witness :
    (addFileRun "" HashAlgorithm.sha256 (hash_data [98] .sha256) [97] ⟨[], []⟩).2
        = Except.error StoreError.hashMismatch ∧
    storeExists ""
        ((addFileRun "" HashAlgorithm.sha256 (hash_data [98] .sha256) [97]
            ⟨[], []⟩).1.getLastD ⟨[], []⟩).files (hash_data [98] .sha256)
      = storeExists "" ([] : List (String × Bytes)) (hash_data [98] .sha256) :=
  addFile_hashMismatch_rejected "" .sha256 (hash_data [98] .sha256) [97] ⟨[], []⟩
    (by rfl) (by decide)

/-- C1 (counterexample to the claim as frozen).  The claim asserts that every
call whose uploaded content has a digest differing from the claimed hash
fails with the hash-mismatch rejection; but for the non-UTF-8 content `[255]`
with a mismatched claimed hash, `fs::read_to_string` (`src/api.rs` line 114)
fails first, so the call returns the `InvalidData` I/O error and never
reaches the hash comparison at line 115 — the error is not HashMismatch. -/
theorem addFile_hashMismatch_counterexample :
    hash_data [98] HashAlgorithm.sha256 ≠ hash_data [255] HashAlgorithm.sha256 ∧
    (addFileRun "" HashAlgorithm.sha256 (hash_data [98] .sha256) [255] ⟨[], []⟩).2
        = Except.error (StoreError.ioError "InvalidData") ∧
    (addFileRun "" HashAlgorithm.sha256 (hash_data [98] .sha256) [255] ⟨[], []⟩).2
        ≠ Except.error StoreError.hashMismatch :=
  ⟨by decide, rfl, by
    intro h
    rw [show (addFileRun "" HashAlgorithm.sha256 (hash_data [98] .sha256) [255] ⟨[], []⟩).2
        = Except.error (StoreError.ioError "InvalidData") from rfl] at h
    injection h with h2
    exact absurd h2 (by decide)⟩

/-- C2 (divergence witness).  Committing the same `(hash, content)` pair twice
is NOT idempotent in the code: the first commit succeeds, and re-running the
identical commit from the resulting state fails, because `fs::create_dir`
(`src/api.rs` line 124) errors with `AlreadyExists` once the shard directory
exists.  The spec requires a no-op success instead. -/
theorem addFile_second_commit_errors :
    (addFileRun "" HashAlgorithm.sha256 (hash_data [97] .sha256) [97] ⟨[], []⟩).2
        = Except.ok () ∧
    (addFileRun "" HashAlgorithm.sha256 (hash_data [97] .sha256) [97]
        ((addFileRun "" HashAlgorithm.sha256 (hash_data [97] .sha256) [97]
            ⟨[], []⟩).1.getLastD ⟨[], []⟩)).2
      = Except.error (StoreError.ioError "AlreadyExists") :=
  ⟨rfl, rfl⟩

/-- C3.  During a `commit_object` execution no intermediate state changes any
path other than the staging path `/tmp/1234`; the final content-addressed path
changes only in the very last state, only when the call succeeds, only after
the hash verification succeeded, and then it holds the complete uploaded
content (the staged file reaches the final path by the single rename of
`persist_to`). -/
theorem addFile_atomic_visibility (root : String) (alg : HashAlgorithm)
    (claimedHash : String) (content : Bytes) (s : FsState) :
    (∀ st ∈ (addFileRun root alg claimedHash content s).1.dropLast,
       ∀ p : String, p ≠ tmpPath → fsGet st.files p = fsGet s.files p) ∧
    (∀ st, (addFileRun root alg claimedHash content s).1.getLast? = some st →
       ∀ p : String, p ≠ tmpPath → fsGet st.files p ≠ fsGet s.files p →
         (addFileRun root alg claimedHash content s).2 = .ok () ∧
         claimedHash = hash_data content alg ∧
         fsGet st.files p = some content ∧
         ∃ ph, parseHash claimedHash = some ph ∧ p = filePath root ph) := by
  rcases addFileRun_shape root alg claimedHash content s with ⟨h1, _⟩ | ⟨ph, hp, hh, h1, h2⟩
  · constructor
    · intro st hst p hpne
      rw [h1] at hst
      simp at hst
    · intro st hst p hpne hne
      rw [h1] at hst
      simp [List.getLast?] at hst
      subst hst
      exact absurd (fsGet_fsSet_ne s.files tmpPath p content hpne) hne
  · constructor
    · intro st hst p hpne
      rw [h1] at hst
      simp [List.dropLast] at hst
      rcases hst with hst | hst <;> subst hst
      · exact fsGet_fsSet_ne s.files tmpPath p content hpne
      · exact fsGet_fsSet_ne s.files tmpPath p content hpne
    · intro st hst p hpne hne
      rw [h1] at hst
      simp [List.getLast?] at hst
      subst hst
      by_cases hfp : p = filePath root ph
      · subst hfp
        exact ⟨h2, hh, fsGet_fsSet_self _ _ _, ph, hp, rfl⟩
      · exfalso
        apply hne
        calc fsGet (fsSet (fsDel (fsSet s.files tmpPath content) tmpPath)
                (filePath root ph) content) p
            = fsGet (fsDel (fsSet s.files tmpPath content) tmpPath) p :=
              fsGet_fsSet_ne _ _ _ _ hfp
          _ = fsGet (fsSet s.files tmpPath content) p := fsGet_fsDel_ne _ _ _ hpne
          _ = fsGet s.files p := fsGet_fsSet_ne _ _ _ _ hpne

theorem addFile_atomic_visibility_witness :
    (addFileRun "" HashAlgorithm.sha256 (hash_data [97] .sha256) [97] ⟨[], []⟩).2
        = Except.ok () ∧
    fsGet ((addFileRun "" HashAlgorithm.sha256 (hash_data [97] .sha256) [97]
          ⟨[], []⟩).1.getLastD ⟨[], []⟩).files
        (filePath "" ((parseHash (hash_data [97] .sha256)).getD ⟨.sha256, []⟩))
      = some [97] := by
  have h := addFile_atomic_visibility "" .sha256 (hash_data [97] .sha256) [97] ⟨[], []⟩
  have h2 := h.2 ((addFileRun "" .sha256 (hash_data [97] .sha256) [97]
      ⟨[], []⟩).1.getLastD ⟨[], []⟩) (by rfl)
      (filePath "" ((parseHash (hash_data [97] .sha256)).getD ⟨.sha256, []⟩))
      (by decide) (by decide)
  exact ⟨h2.1, h2.2.2.1⟩

/-- C8.  `add_file` reads the staged upload with `fs::read_to_string`
(`src/api.rs` line 114), so content that is not valid UTF-8 is always
rejected with an `InvalidData` I/O error, whatever the claimed hash, and
nothing outside the staging path is written. -/
theorem addFile_rejects_invalid_utf8 (root : String) (alg : HashAlgorithm)
    (claimedHash : String) (content : Bytes) (s : FsState)
    (hv : validUtf8 content = false) :
    (addFileRun root alg claimedHash content s).2 = .error (.ioError "InvalidData") ∧
    ∀ p : String, p ≠ tmpPath →
      fsGet ((addFileRun root alg claimedHash content s).1.getLastD s).files p
        = fsGet s.files p := by
  have hrun : addFileRun root alg claimedHash content s
      = ([{ s with files := fsSet s.files tmpPath content }],
         .error (.ioError "InvalidData")) := by
    unfold addFileRun
    dsimp only
    rw [if_neg (by simp [hv])]
  rw [hrun]
  exact ⟨rfl, fun p hp => fsGet_fsSet_ne s.files tmpPath p content hp⟩

theorem addFile_rejects_invalid_utf8_witness :
    (addFileRun "" HashAlgorithm.sha256 "sha256:00" [255] ⟨[], []⟩).2
        = Except.error (StoreError.ioError "InvalidData") ∧
    fsGet ((addFileRun "" HashAlgorithm.sha256 "sha256:00" [255]
          ⟨[], []⟩).1.getLastD ⟨[], []⟩).files "a"
      = fsGet ([] : List (String × Bytes)) "a" := by
  have h := addFile_rejects_invalid_utf8 "" .sha256 "sha256:00" [255] ⟨[], []⟩ (by rfl)
  exact ⟨h.1, h.2 "a" (by decide)⟩

/-- C9.  Every `add_file` call, whatever its arguments and outcome, first
makes the uploaded content visible at the single fixed path `/tmp/1234`
(`src/api.rs` line 109), a location that is never a content-addressed store
path — so every commit mutates shared state outside the object store. -/
theorem addFile_stages_to_fixed_tmp (root : String) (alg : HashAlgorithm)
    (claimedHash : String) (content : Bytes) (s : FsState) :
    fsGet (((addFileRun root alg claimedHash content s).1.headD s).files) "/tmp/1234"
        = some content ∧
    ∀ h ph, parseHash h = some ph → filePath root ph ≠ "/tmp/1234" := by
  constructor
  · rcases addFileRun_shape root alg claimedHash content s with ⟨h1, _⟩ | ⟨ph, _, _, h1, _⟩ <;>
      rw [h1] <;> exact fsGet_fsSet_self _ _ _
  · intro h ph hp
    exact filePath_ne_tmpPath hp root


theorem addFile_stages_to_fixed_tmp_witness :
    fsGet (((addFileRun "" HashAlgorithm.sha256 (hash_data [97] .sha256) [97]
          ⟨[], []⟩).1.headD ⟨[], []⟩).files) "/tmp/1234" = some [97] ∧
    filePath "" ((parseHash (hash_data [97] .sha256)).getD ⟨.sha256, []⟩) ≠ "/tmp/1234" := by
  have h := addFile_stages_to_fixed_tmp "" .sha256 (hash_data [97] .sha256) [97] ⟨[], []⟩
  exact ⟨h.1, h.2 (hash_data [97] .sha256)
    ((parseHash (hash_data [97] .sha256)).getD ⟨.sha256, []⟩) (by rfl)⟩


/-- C6.  For every repository state and since-time, the sequence returned by
`get_packets_since` (the metadata endpoint with `known_since`) is totally
ordered monotonically by `time` ascending, with ties broken by the lexical
order of packet ids. -/
theorem get_metadata_sorted (repo : List Packet) (known_since : Option ℚ) :
    List.Sorted (fun p q : Packet => p.time < q.time ∨ (p.time = q.time ∧ p.id ≤ q.id))
      (get_metadata_from_date repo known_since) :=
  List.sorted_insertionSort packetLE _

/-- C4.  `missing_packets` (the `/packets/missing` endpoint, without the
unpacked restriction) returns exactly the index's id set minus the supplied
known ids, with no duplicates, and its packets are ordered by `time`
ascending. -/
theorem missing_packets_spec (repo : List Packet) (known : List String)
    (materialized : String → Bool) (hnd : (repo.map Packet.id).Nodup) :
    (∀ x, x ∈ get_missing_ids repo known false materialized ↔
        x ∈ repo.map Packet.id ∧ x ∉ known) ∧
    (get_missing_ids repo known false materialized).Nodup ∧
    List.Sorted (fun p q : Packet => p.time ≤ q.time)
      (missingPackets repo known false materialized) ∧
    get_missing_ids repo known false materialized
      = (missingPackets repo known false materialized).map Packet.id := by
  refine ⟨?_, ?_, List.sorted_insertionSort timeLE _, rfl⟩
  · intro x
    constructor
    · intro hx
      unfold get_missing_ids missingPackets at hx
      rcases List.mem_map.mp hx with ⟨p, hpmem, rfl⟩
      have hp2 : p ∈ repo.filter
          (fun p => !decide (p.id ∈ known) && (!false || !materialized p.id)) :=
        (List.perm_insertionSort timeLE _).mem_iff.mp hpmem
      have hf := List.mem_filter.mp hp2
      refine ⟨List.mem_map_of_mem Packet.id hf.1, ?_⟩
      have := hf.2
      simp only [Bool.not_false, Bool.true_or, Bool.and_true, Bool.not_eq_true',
        decide_eq_false_iff_not] at this
      exact this
    · rintro ⟨hx, hnk⟩
      rcases List.mem_map.mp hx with ⟨p, hp, rfl⟩
      apply List.mem_map_of_mem
      apply (List.perm_insertionSort timeLE _).mem_iff.mpr
      apply List.mem_filter.mpr
      exact ⟨hp, by simp [hnk]⟩
  · unfold get_missing_ids missingPackets
    have hperm := List.perm_insertionSort timeLE
      (repo.filter fun p => !decide (p.id ∈ known) && (!false || !materialized p.id))
    refine ((hperm.map Packet.id).nodup_iff).mpr ?_
    exact hnd.sublist ((List.filter_sublist _).map _)

theorem missing_packets_spec_witness :
    (("b" : String) ∈ get_missing_ids
        [⟨"b", "n", 2, []⟩, ⟨"a", "n", 1, []⟩] ["a"] false (fun _ => false) ↔
      ("b" : String) ∈ ([⟨"b", "n", 2, []⟩, ⟨"a", "n", 1, []⟩] : List Packet).map Packet.id ∧
      ("b" : String) ∉ (["a"] : List String)) ∧
    (get_missing_ids [⟨"b", "n", 2, []⟩, ⟨"a", "n", 1, []⟩] ["a"] false
      (fun _ => false)).Nodup := by
  have h := missing_packets_spec [⟨"b", "n", 2, []⟩, ⟨"a", "n", 1, []⟩] ["a"]
    (fun _ => false) (by decide)
  exact ⟨h.1 "b", h.2.1⟩

theorem length_foldl_append (l : List String) (acc : String) :
    (l.foldl (fun r s => r ++ s) acc).length = acc.length + (l.map String.length).sum := by
  induction l generalizing acc with
  | nil => simp
  | cons a t ih =>
    rw [List.foldl_cons, ih, List.map_cons, List.sum_cons]
    simp [String.length_append]
    omega

/-- C5.  `get_ids_digest` is deterministic over the repository contents, and —
for an injective digest function — adding one new packet (with a non-empty
id) to the repository changes the returned digest: the concatenation of the
sorted id set grows strictly in length. -/
theorem ids_digest_stable_and_sensitive (digest : String → String)
    (repo : List Packet) (p : Packet)
    (hinj : Function.Injective digest) (hne : p.id ≠ "") :
    get_ids_digest digest repo = get_ids_digest digest repo ∧
    get_ids_digest digest (p :: repo) ≠ get_ids_digest digest repo := by
  refine ⟨rfl, fun hEq => ?_⟩
  have key : ∀ l : List String,
      (String.join (l.insertionSort (fun a b : String => a ≤ b))).length
        = (l.map String.length).sum := by
    intro l
    have hperm := List.perm_insertionSort (fun a b : String => a ≤ b) l
    rw [String.join, length_foldl_append]
    have h0 : ("" : String).length = 0 := rfl
    rw [h0, Nat.zero_add]
    exact (hperm.map String.length).sum_eq
  rw [get_ids_digest, get_ids_digest] at hEq
  have hl2 := congrArg String.length (hinj hEq)
  rw [key, key, List.map_cons, List.map_cons, List.sum_cons] at hl2
  have hlen0 : p.id.length = 0 := by omega
  apply hne
  apply String.ext
  show p.id.data = ([] : List Char)
  exact List.length_eq_zero.mp hlen0

theorem ids_digest_stable_and_sensitive_witness :
    get_ids_digest (fun s => s) ([] : List Packet)
        = get_ids_digest (fun s => s) ([] : List Packet) ∧
    get_ids_digest (fun s => s) [⟨"x", "n", 0, []⟩]
        ≠ get_ids_digest (fun s => s) ([] : List Packet) :=
  ids_digest_stable_and_sensitive (fun s => s) [] ⟨"x", "n", 0, []⟩
    (fun _ _ h => h) (by decide)


/-- C7.  `single(expr)` returns the packet when the expression matches exactly
one packet, and fails with `AmbiguousQuery` naming the count found whenever
the match count is zero or at least two. -/
theorem single_query_spec (e : QExpr) (repo : List Packet) :
    (∀ p, repo.filter (matchesQ e) = [p] → singleQuery e repo = .ok p) ∧
    ((repo.filter (matchesQ e)).length = 0 ∨ 2 ≤ (repo.filter (matchesQ e)).length →
      singleQuery e repo
        = .error (.ambiguousQuery (repo.filter (matchesQ e)).length)) := by
  have hperm : List.Perm (evalMatches e repo) (repo.filter (matchesQ e)) :=
    List.perm_insertionSort packetLE _
  constructor
  · intro p hp
    have h1 : evalMatches e repo = [p] := by
      rw [hp] at hperm
      exact List.perm_singleton.mp hperm
    unfold singleQuery
    rw [h1]
  · intro hlen
    have hlen2 : (evalMatches e repo).length = (repo.filter (matchesQ e)).length :=
      hperm.length_eq
    have hlen1 : (repo.filter (matchesQ e)).length ≠ 1 := by omega
    unfold singleQuery
    rcases hm : evalMatches e repo with _ | ⟨a, _ | ⟨b, t⟩⟩ <;> rw [hm] at hlen2
    · dsimp
      simp only [List.length_nil] at hlen2
      rw [← hlen2]
    · exact absurd hlen2.symm (by simpa using hlen1)
    · dsimp
      rw [← hlen2]
      simp [List.length_cons]

theorem single_query_spec_witness :
    singleQuery (.cmpEq .lookupName (.lit (.vstr "a")))
        [⟨"p1", "a", 1, []⟩, ⟨"p2", "a", 2, []⟩]
      = Except.error (.ambiguousQuery
          (([⟨"p1", "a", 1, []⟩, ⟨"p2", "a", 2, []⟩] : List Packet).filter
            (matchesQ (.cmpEq .lookupName (.lit (.vstr "a"))))).length) := by
  have h := single_query_spec (.cmpEq .lookupName (.lit (.vstr "a")))
    [⟨"p1", "a", 1, []⟩, ⟨"p2", "a", 2, []⟩]
  exact h.2 (by decide)


theorem splitOnNl_ne_nil (s : List Char) : splitOnNl s ≠ [] := by
  induction s with
  | nil => simp [splitOnNl]
  | cons c cs ih =>
    by_cases hc : c = '\n'
    · simp [splitOnNl, hc]
    · simp only [splitOnNl, if_neg hc]
      rcases hr : splitOnNl cs with _ | ⟨h, t⟩
      · simp
      · simp

theorem mem_splitOnNl_no_nl (s : List Char) : ∀ l ∈ splitOnNl s, '\n' ∉ l := by
  induction s with
  | nil =>
    intro l hl
    simp [splitOnNl] at hl
    subst hl
    simp
  | cons c cs ih =>
    intro l hl
    by_cases hc : c = '\n'
    · simp only [splitOnNl, if_pos hc] at hl
      rcases List.mem_cons.mp hl with hl | hl
      · subst hl; simp
      · exact ih l hl
    · simp only [splitOnNl, if_neg hc] at hl
      rcases hr : splitOnNl cs with _ | ⟨h, t⟩
      · exact absurd hr (splitOnNl_ne_nil cs)
      · rw [hr] at hl
        dsimp at hl
        rcases List.mem_cons.mp hl with hl | hl
        · subst hl
          intro hmem
          rcases List.mem_cons.mp hmem with he | he
          · exact hc he.symm
          · exact ih h (by rw [hr]; exact List.mem_cons_self _ _) he
        · exact ih l (by rw [hr]; exact List.mem_cons_of_mem _ hl)

theorem joinNl_splitOnNl (s : List Char) : joinNl (splitOnNl s) = s := by
  induction s with
  | nil => rfl
  | cons c cs ih =>
    by_cases hc : c = '\n'
    · subst hc
      simp only [splitOnNl, if_pos rfl]
      rcases hr : splitOnNl cs with _ | ⟨h, t⟩
      · exact absurd hr (splitOnNl_ne_nil cs)
      · rw [hr] at ih
        show [] ++ '\n' :: joinNl (h :: t) = '\n' :: cs
        rw [List.nil_append, ih]
    · simp only [splitOnNl, if_neg hc]
      rcases hr : splitOnNl cs with _ | ⟨h, t⟩
      · exact absurd hr (splitOnNl_ne_nil cs)
      · rw [hr] at ih
        dsimp
        cases t with
        | nil =>
          show c :: h = c :: cs
          rw [show joinNl [h] = h from rfl] at ih
          rw [ih]
        | cons t1 ts =>
          show (c :: h) ++ '\n' :: joinNl (t1 :: ts) = c :: cs
          rw [← ih]
          have hj : joinNl (h :: t1 :: ts) = h ++ '\n' :: joinNl (t1 :: ts) := rfl
          rw [hj, List.cons_append]

theorem joinNl_concat_nil (l : List (List Char)) (hne : l ≠ []) :
    joinNl (l ++ [([] : List Char)]) = joinNl l ++ ['\n'] := by
  induction l with
  | nil => exact absurd rfl hne
  | cons a t ih =>
    cases t with
    | nil => rfl
    | cons b ts =>
      have ih2 := ih (by simp)
      show a ++ '\n' :: joinNl ((b :: ts) ++ [([] : List Char)])
          = (a ++ '\n' :: joinNl (b :: ts)) ++ ['\n']
      rw [ih2]
      simp [List.append_assoc]

theorem joinNl_splitTerm (s : List Char) :
    joinNl (splitTerm s) = s ∨ joinNl (splitTerm s) ++ ['\n'] = s := by
  unfold splitTerm
  dsimp only
  rcases List.eq_nil_or_concat (splitOnNl s) with hr | ⟨r2, a, hr⟩
  · exact absurd hr (splitOnNl_ne_nil s)
  · rw [List.concat_eq_append] at hr
    rw [hr]
    by_cases ha : a = []
    · subst ha
      rw [List.getLast?_concat, if_pos rfl, List.dropLast_concat]
      by_cases hr2 : r2 = []
      · subst hr2
        left
        have hj := joinNl_splitOnNl s
        rw [hr] at hj
        exact hj
      · right
        have hj := joinNl_splitOnNl s
        rw [hr, joinNl_concat_nil r2 hr2] at hj
        exact hj
    · rw [List.getLast?_concat, if_neg (by simpa using ha)]
      left
      have hj := joinNl_splitOnNl s
      rw [hr] at hj
      exact hj

/-- C10.  `git_list_branches` reports exactly the remote branches after the
first one (the HEAD pointer); each reported branch name is the raw name with
a leading `origin/` removed (unchanged when that qualifier is absent), and
the reported message is the commit message split into newline-free lines at
newline terminators (joining the lines with newlines restores the message up
to its terminating newline). -/
theorem git_list_branches_spec (bs : List RemoteBranch) :
    (∀ i : ℕ, (git_list_branches bs)[i]? = (bs[i + 1]?).map get_branch_info) ∧
    ∀ b : RemoteBranch,
      (originChars ++ (get_branch_info b).name = b.name ∨
        ((¬ ∃ t, originChars ++ t = b.name) ∧ (get_branch_info b).name = b.name)) ∧
      (∀ line ∈ (get_branch_info b).message, '\n' ∉ line) ∧
      (joinNl ((get_branch_info b).message) = b.commitMessage ∨
        joinNl ((get_branch_info b).message) ++ ['\n'] = b.commitMessage) := by
  constructor
  · intro i
    unfold git_list_branches
    rw [List.getElem?_map, List.getElem?_drop, Nat.add_comm]
  · intro b
    refine ⟨?_, ?_, joinNl_splitTerm b.commitMessage⟩
    · unfold get_branch_info removeOrigin
      dsimp only
      by_cases ht : b.name.take 7 = originChars
      · left
        rw [if_pos ht, ← ht]
        exact List.take_append_drop 7 b.name
      · right
        refine ⟨?_, if_neg ht⟩
        rintro ⟨t, htt⟩
        apply ht
        rw [← htt]
        have h7 : originChars.length = 7 := rfl
        rw [← h7, List.take_left]
    · intro line hline
      have hsub : line ∈ splitOnNl b.commitMessage := by
        unfold get_branch_info splitTerm at hline
        dsimp only at hline
        split at hline
        · rw [List.dropLast_eq_take] at hline
          exact (List.take_sublist _ _).mem hline
        · exact hline
      exact mem_splitOnNl_no_nl b.commitMessage line hsub

theorem git_list_branches_spec_witness :
    (git_list_branches
        [⟨"origin/HEAD".toList, "h0".toList, 0, "m".toList⟩,
         ⟨"origin/main".toList, "h1".toList, 5, "line1\nline2\n".toList⟩])[0]?
      = (([⟨"origin/HEAD".toList, "h0".toList, 0, "m".toList⟩,
           ⟨"origin/main".toList, "h1".toList, 5, "line1\nline2\n".toList⟩]
            : List RemoteBranch)[0 + 1]?).map get_branch_info ∧
    '\n' ∉ "line1".toList := by
  have h := git_list_branches_spec
    [⟨"origin/HEAD".toList, "h0".toList, 0, "m".toList⟩,
     ⟨"origin/main".toList, "h1".toList, 5, "line1\nline2\n".toList⟩]
  exact ⟨h.1 0,
    (h.2 ⟨"origin/main".toList, "h1".toList, 5, "line1\nline2\n".toList⟩).2.1
      "line1".toList (by decide)⟩

end Outpack
